import Mathlib

/-!
Verification of the asset-optimization cache of `packages/xdl/src/AssetUtils.ts`.

The functions `getAssetFilesAsync`, `filterImages`, `hasUnoptimizedAssetsAsync`,
`readAssetJsonAsync` and `createNewFilename` are embedded as pure Lean
functions.  External collaborators (the `glob` library, Node's `path` module,
the `@expo/json-file` document store, the filesystem and the SHA-256 hasher)
are modelled explicitly: the filesystem and hasher as fields of a
`ProjectState`, glob matching by an executable matcher over the state's file
universe, and the JSON document store by an `Option`-valued manifest slot.
-/

namespace AssetUtils

/-- JavaScript string truthiness for an optional string option
(`undefined` and the empty string are falsy). -/
def optTruthy : Option String → Bool
  | none => false
  | some s => !(s == "")

/-- Step-bounded core of the glob matcher; every recursive call decreases
`p.length + s.length`, so `p.length + s.length + 1` steps always suffice. -/
def globMatchAux (fuel : Nat) (p : List Char) (s : List Char) : Bool :=
  match fuel with
  | 0 => false
  | fuel + 1 =>
    match p, s with
    | [], [] => true
    | [], _ :: _ => false
    | '*' :: '*' :: ps, s =>
      globMatchAux fuel ps s ||
        match s with
        | [] => false
        | _ :: s' => globMatchAux fuel ('*' :: '*' :: ps) s'
    | '*' :: ps, s =>
      globMatchAux fuel ps s ||
        match s with
        | [] => false
        | c :: s' => !(c == '/') && globMatchAux fuel ('*' :: ps) s'
    | _ :: _, [] => false
    | c :: ps, d :: s' => c == d && globMatchAux fuel ps s'

/-- Glob pattern matching over characters, as the `glob` library matches a
pattern against a relative path: `*` matches any run of characters other than
the path separator `/`, `**` matches any run of characters including `/`,
every other character matches itself. -/
def globMatch (p : List Char) (s : List Char) : Bool :=
  globMatchAux (p.length + s.length + 1) p s

/-- Split a character list into its `/`-separated segments. -/
def splitSegs : List Char → List (List Char)
  | [] => [[]]
  | c :: rest =>
    match splitSegs rest with
    | [] => []
    | seg :: segs => if c = '/' then [] :: seg :: segs else (c :: seg) :: segs

/-- The fixed `ignore` option passed to `glob.sync`
(`['**/node_modules/**', '**/ios/**', '**/android/**']`): a relative path is
ignored when one of its non-final `/`-separated components is
`node_modules`, `ios` or `android`. -/
def isIgnored (file : String) : Bool :=
  (splitSegs file.data).dropLast.any fun seg =>
    seg == "node_modules".data || seg == "ios".data || seg == "android".data

/-- The manifest document at `<projectDir>/.expo-shared/assets.json`:
either a flat digest-to-boolean record, or text that does not parse. -/
inductive ManifestDoc : Type
  | valid (record : List (String × Bool))
  | corrupt
deriving DecidableEq

/-- The environment a run observes: the project directory path, the universe
of relative paths `glob.sync` can return, the `assetBundlePatterns` entry of
`app.json` (`none` when the key is absent), the manifest document (`none`
when the file does not exist), and the content digest `calculateHash`
computes for an absolute file path. -/
structure ProjectState : Type where
  projectDir : String
  files : List String
  assetBundlePatterns : Option (List String)
  manifest : Option ManifestDoc
  hash : String → String

/-- The `OptimizationOptions` record from the source; the `include` and `exclude`
flags are optional glob patterns and `save` is an optional boolean. -/
structure OptimizationOptions : Type where
  quality : Nat
  include? : Option String := none
  exclude? : Option String := none
  save : Option Bool := none

/-- Model of `glob.sync(pattern, { cwd: projectDir, ignore: [...] })`: the members of
the project's file universe matching the pattern and not ignored. -/
def globSync (s : ProjectState) (pattern : String) : List String :=
  s.files.filter fun f => globMatch pattern.data f.data && !isIgnored f

/-- The `allFiles` accumulation of `getAssetFilesAsync`: every
`assetBundlePatterns` pattern (defaulting to `['**/*']`) expanded and
concatenated. -/
def allFilesOf (s : ProjectState) : List String :=
  (s.assetBundlePatterns.getD ["**/*"]).foldl (fun acc p => acc ++ globSync s p) []

/-- The `included` list of `getAssetFilesAsync`:
`options && options.include ? [...glob.sync(options.include, globOptions)] : allFiles`. -/
def includedOf (s : ProjectState) (options : OptimizationOptions) : List String :=
  match options.include? with
  | some pat => if pat == "" then allFilesOf s else globSync s pat
  | none => allFilesOf s

/-- The `toExclude` set of `getAssetFilesAsync`: built from the exclude
pattern when it is truthy, empty otherwise. -/
def toExcludeOf (s : ProjectState) (options : OptimizationOptions) : List String :=
  match options.exclude? with
  | some pat => if pat == "" then [] else globSync s pat
  | none => []

/-- The `excluded` list of `getAssetFilesAsync`:
`included.filter(file => !toExclude.has(file))`. -/
def excludedOf (s : ProjectState) (options : OptimizationOptions) : List String :=
  (includedOf s options).filter fun f => !(toExcludeOf s options).contains f

/-- The `filtered` list of `getAssetFilesAsync`:
`options && options.exclude ? excluded : included`. -/
def filteredOf (s : ProjectState) (options : OptimizationOptions) : List String :=
  if optTruthy options.exclude? then excludedOf s options else includedOf s options

/-- JavaScript `str.replace('//', '/')`: only the first occurrence of a
doubled slash is collapsed. -/
def replaceFirstDS : List Char → List Char
  | [] => []
  | [c] => [c]
  | c₁ :: c₂ :: rest =>
    if c₁ = '/' ∧ c₂ = '/' then c₁ :: rest else c₁ :: replaceFirstDS (c₂ :: rest)

/-- Computes `suffix.reverse.isPrefixOf s.reverse`: does `s` end with `suffix`? -/
def endsWithL (s suffix : List Char) : Bool :=
  suffix.reverse.isPrefixOf s.reverse

/-- The test `/\.(png|jpg|jpeg)$/.test(file.toLowerCase())` of
`filterImages`: the ASCII-lowercased path ends with `.png`, `.jpg` or
`.jpeg`. -/
def hasImageExt (file : String) : Bool :=
  let l := file.data.map Char.toLower
  endsWithL l ".png".data || endsWithL l ".jpg".data || endsWithL l ".jpeg".data

/-- The function `filterImages(files, projectDir)` from the source: prefix each relative
path with `` `${projectDir}/${file}` ``, collapse the first doubled slash,
and keep only paths passing the image-extension test. -/
def filterImages (files : List String) (projectDir : String) : List String :=
  let withDirectory :=
    files.map fun file => String.mk (replaceFirstDS (projectDir.data ++ '/' :: file.data))
  withDirectory.filter hasImageExt

/-- The pair `{ allFiles, selectedFiles }` returned by `getAssetFilesAsync`. -/
structure FileSets : Type where
  allFiles : List String
  selectedFiles : List String
deriving DecidableEq

/-- The function `getAssetFilesAsync(projectDir, options)` from the source, with the
config read and glob expansion supplied by the `ProjectState`. -/
def getAssetFilesAsync (s : ProjectState) (options : OptimizationOptions) : FileSets :=
  { allFiles := filterImages (allFilesOf s) s.projectDir
    selectedFiles := filterImages (filteredOf s options) s.projectDir }

/-- JavaScript property lookup `assetInfo[hash]` on the flat
digest-to-boolean record: `none` models `undefined`. -/
def lookupHash (info : List (String × Bool)) (h : String) : Option Bool :=
  (info.find? fun p => p.1 == h).map Prod.snd

/-- JavaScript truthiness of `assetInfo[hash]`: `undefined` and `false` are
falsy, `true` is truthy. -/
def truthyEntry : Option Bool → Bool
  | none => false
  | some b => b

/-- The `for (const file of selectedFiles)` loop of
`hasUnoptimizedAssetsAsync`: hash each file in order and return `true` at
the first file whose digest is not truthy in the record; `false` if the
loop finishes. -/
def checkFiles (hash : String → String) (info : List (String × Bool)) :
    List String → Bool
  | [] => false
  | f :: rest =>
    if !truthyEntry (lookupHash info (hash f)) then true
    else checkFiles hash info rest

/-- The function `readAssetJsonAsync(projectDir)` from the source, threading the
filesystem state explicitly.  When `.expo-shared/assets.json` does not
exist it is created with the empty record `{}` and read back; when it
exists it is parsed.  Modelled from the spec for the part outside `src/`:
the `@expo/json-file` `readAsync` raises a fatal parse error on a corrupt
document (`FileSystemError`), and the load never overwrites such a
document. -/
def readAssetJsonAsync (s : ProjectState) :
    ProjectState × Except String (List (String × Bool)) :=
  match s.manifest with
  | none => ({ s with manifest := some (ManifestDoc.valid []) }, Except.ok [])
  | some (ManifestDoc.valid record) => (s, Except.ok record)
  | some ManifestDoc.corrupt => (s, Except.error "Error parsing JSON: assets.json")

/-- The function `hasUnoptimizedAssetsAsync(projectDir, options)` from the source: short
circuit `true` when the manifest file does not exist, otherwise select the
files, load the record and scan for the first unrecorded digest. -/
def hasUnoptimizedAssetsAsync (s : ProjectState) (options : OptimizationOptions) :
    ProjectState × Except String Bool :=
  if s.manifest.isNone then (s, Except.ok true)
  else
    let selectedFiles := (getAssetFilesAsync s options).selectedFiles
    match readAssetJsonAsync s with
    | (s', Except.ok assetInfo) => (s', Except.ok (checkFiles s.hash assetInfo selectedFiles))
    | (s', Except.error e) => (s', Except.error e)

/-- Split `cs` as `before ++ sep :: after` at the LAST occurrence of `sep`
(`none` when `sep` does not occur). -/
def splitAtLastChar (sep : Char) (cs : List Char) : Option (List Char × List Char) :=
  let r := cs.reverse
  match r.dropWhile (fun c => !(c == sep)) with
  | [] => none
  | _ :: before => some (before.reverse, (r.takeWhile fun c => !(c == sep)).reverse)

/-- Node's posix `path.parse`, reduced to the `(dir, name, ext)` triple the
source uses, modelled for paths that do not end in a separator: `dir` is
everything before the last `/` (`/` when the last `/` is leading, empty when
there is none), and the base name after it splits at its last `.` into
`name` and `ext` unless that dot is absent, leading, or the base name is
exactly `..` (Node's special case: name `..`, empty extension). -/
def pathParse (p : String) : String × String × String :=
  let (dir, base) :=
    match splitAtLastChar '/' p.data with
    | none => ("", p.data)
    | some (d, b) => (if d = [] then "/" else String.mk d, b)
  match splitAtLastChar '.' base with
  | none => (dir, String.mk base, "")
  | some (n, e) =>
    if n = [] ∨ (n = ['.'] ∧ e = []) then (dir, String.mk base, "")
    else (dir, String.mk n, String.mk ('.' :: e))

/-- Is a path segment a plain name: non-empty and neither `.` nor `..`? -/
def plainSeg (seg : List Char) : Bool :=
  !(seg == [] || seg == ['.'] || seg == ['.', '.'])

/-- One step of Node's `normalizeString` over the segment stack: empty and
`.` segments are dropped; a `..` segment pops the last plain segment, is
kept (chained) above root when the path is relative, and is dropped at the
root of an absolute path; every other segment is pushed. -/
def normStep (allowAboveRoot : Bool) (stack : List (List Char)) (seg : List Char) :
    List (List Char) :=
  if seg = [] ∨ seg = ['.'] then stack
  else if seg = ['.', '.'] then
    match stack with
    | top :: rest =>
      if top = ['.', '.'] then (if allowAboveRoot then ['.', '.'] :: stack else stack)
      else rest
    | [] => if allowAboveRoot then [['.', '.']] else []
  else seg :: stack

/-- Join segments back with `/` separators. -/
def joinSegs : List (List Char) → List Char
  | [] => []
  | [seg] => seg
  | seg :: s₂ :: rest => seg ++ '/' :: joinSegs (s₂ :: rest)

/-- Node's posix `path.normalize`: record whether the path is absolute and
whether it ends in a separator, normalize the `/`-separated segments
(dropping empty and `.` segments and resolving `..` segments, which may
remain only above the root of a relative path), then re-attach the root
and trailing separator; an empty result collapses to `/`, `./` or `.`. -/
def normalizePosix (cs : List Char) : List Char :=
  if cs = [] then ['.']
  else
    let isAbs := cs.head? == some '/'
    let trailingSep := cs.getLast? == some '/'
    let stack := (splitSegs cs).foldl (normStep !isAbs) []
    let body := joinSegs stack.reverse
    if body = [] then
      if isAbs then ['/'] else if trailingSep then ['.', '/'] else ['.']
    else
      (if isAbs then '/' :: body else body) ++ (if trailingSep then ['/'] else [])

/-- Node's posix `path.join` on two segments: concatenate the non-empty
segments with a separator and apply `path.normalize`; with no non-empty
segment the result is `.`. -/
def pathJoin (a b : String) : String :=
  let joined :=
    if a.data = [] then b.data
    else if b.data = [] then a.data
    else a.data ++ '/' :: b.data
  if joined = [] then "." else String.mk (normalizePosix joined)

/-- Does a directory path consist of plain segments, apart from an optional
leading empty segment marking an absolute path? -/
def plainDir (dir : List Char) : Bool :=
  match splitSegs dir with
  | [] => false
  | first :: rest => (first == [] || plainSeg first) && rest.all plainSeg

/-- The function `createNewFilename(imagePath)` from the source:
`path.parse` the path and rejoin with `.orig` spliced between name and
extension. -/
def createNewFilename (imagePath : String) : String :=
  let parsed := pathParse imagePath
  pathJoin parsed.1 (parsed.2.1 ++ ".orig" ++ parsed.2.2)

/-- Does the character list contain two consecutive `/` characters? -/
def hasDS : List Char → Bool
  | c₁ :: c₂ :: rest => (c₁ == '/' && c₂ == '/') || hasDS (c₂ :: rest)
  | _ => false

/-- Number of (possibly overlapping) positions at which two consecutive `/`
characters occur. -/
def dsCount : List Char → Nat
  | c₁ :: c₂ :: rest => (if c₁ = '/' ∧ c₂ = '/' then 1 else 0) + dsCount (c₂ :: rest)
  | _ => 0

/-- Modelled from the spec for the refinement claim: the variant of
`getAssetFilesAsync` that always returns the exclusion-filtered list,
whether or not an exclude pattern is set. -/
def getAssetFilesAsyncAlwaysExclude (s : ProjectState) (options : OptimizationOptions) :
    FileSets :=
  { allFiles := filterImages (allFilesOf s) s.projectDir
    selectedFiles := filterImages (excludedOf s options) s.projectDir }

/-- Concrete project with image files `a.png`, `b.png`, `c.jpg` all matched
by the bundle pattern `*`, and no manifest. -/
def exampleProject : ProjectState :=
  { projectDir := "/p"
    files := ["a.png", "b.png", "c.jpg"]
    assetBundlePatterns := some ["*"]
    manifest := none
    hash := fun _ => "" }

/-- Concrete project whose manifest maps the digest of its only image file
to `false`. -/
def falseEntryProject : ProjectState :=
  { projectDir := "/p"
    files := ["a.png"]
    assetBundlePatterns := some ["*"]
    manifest := some (ManifestDoc.valid [("h", false)])
    hash := fun _ => "h" }

/-- Concrete project whose manifest maps the digest of its only image file
to `true`. -/
def recordedProject : ProjectState :=
  { projectDir := "/p"
    files := ["a.png"]
    assetBundlePatterns := some ["*"]
    manifest := some (ManifestDoc.valid [("h", true)])
    hash := fun _ => "h" }

/-- Concrete project whose directory path contains a doubled separator and
ends with a separator. -/
def doubledSlashProject : ProjectState :=
  { projectDir := "/r//s/"
    files := ["a.png"]
    assetBundlePatterns := some ["*"]
    manifest := none
    hash := fun _ => "" }

/-- Concrete project whose manifest document exists but does not parse. -/
def corruptProject : ProjectState :=
  { projectDir := "/p"
    files := ["a.png"]
    assetBundlePatterns := some ["*"]
    manifest := some ManifestDoc.corrupt
    hash := fun _ => "h" }

/-- Options used by the concrete examples: a bare quality setting. -/
def basicOptions : OptimizationOptions := { quality := 80 }

/-! ## Helper lemmas -/

/-- The scanning loop of `hasUnoptimizedAssetsAsync` is extensionally the
existence of a selected file whose digest is not truthy in the record. -/
theorem checkFiles_eq_any (hash : String → String) (info : List (String × Bool)) :
    ∀ l : List String,
      checkFiles hash info l = l.any fun f => !truthyEntry (lookupHash info (hash f))
  | [] => rfl
  | f :: rest => by
    cases hp : !truthyEntry (lookupHash info (hash f)) with
    | true => simp [checkFiles, hp]
    | false => simp [checkFiles, hp, checkFiles_eq_any hash info rest]

/-- Filtering against the empty exclusion set is the identity. -/
theorem filter_not_contains_nil :
    ∀ l : List String, (l.filter fun f => !(([] : List String).contains f)) = l
  | [] => rfl
  | f :: rest => by
    simp [List.filter, filter_not_contains_nil rest]

/-- Splitting on separators never yields an empty segment list. -/
theorem splitSegs_ne_nil : ∀ cs : List Char, splitSegs cs ≠ []
  | [] => by simp [splitSegs]
  | c :: rest => by
    obtain ⟨seg, segs, hsegs⟩ : ∃ seg segs, splitSegs rest = seg :: segs := by
      cases hr : splitSegs rest with
      | nil => exact absurd hr (splitSegs_ne_nil rest)
      | cons seg segs => exact ⟨seg, segs, rfl⟩
    by_cases hc : c = '/' <;> simp [splitSegs, hsegs, hc]

/-- A separator-free list is a single segment. -/
theorem splitSegs_of_not_mem : ∀ r : List Char, '/' ∉ r → splitSegs r = [r]
  | [], _ => rfl
  | c :: t, h => by
    have hc : c ≠ '/' := fun hEq => h (hEq ▸ List.mem_cons_self c t)
    have ht : '/' ∉ t := fun hm => h (List.mem_cons_of_mem c hm)
    simp [splitSegs, splitSegs_of_not_mem t ht, hc]

/-- A leading separator contributes a leading empty segment. -/
theorem splitSegs_cons_slash (rest : List Char) :
    splitSegs ('/' :: rest) = [] :: splitSegs rest := by
  obtain ⟨seg, segs, h⟩ : ∃ seg segs, splitSegs rest = seg :: segs := by
    cases hr : splitSegs rest with
    | nil => exact absurd hr (splitSegs_ne_nil rest)
    | cons seg segs => exact ⟨seg, segs, rfl⟩
  rw [splitSegs, h]
  simp

/-- Splitting distributes over an append through a separator. -/
theorem splitSegs_append_slash :
    ∀ l r : List Char, splitSegs (l ++ '/' :: r) = splitSegs l ++ splitSegs r
  | [], r => by
    obtain ⟨seg, segs, hsegs⟩ : ∃ seg segs, splitSegs r = seg :: segs := by
      cases hr : splitSegs r with
      | nil => exact absurd hr (splitSegs_ne_nil r)
      | cons seg segs => exact ⟨seg, segs, rfl⟩
    simp [splitSegs, hsegs]
  | c :: l', r => by
    obtain ⟨seg, segs, hsegs⟩ : ∃ seg segs, splitSegs l' = seg :: segs := by
      cases hl : splitSegs l' with
      | nil => exact absurd hl (splitSegs_ne_nil l')
      | cons seg segs => exact ⟨seg, segs, rfl⟩
    obtain ⟨rseg, rsegs, hrsegs⟩ : ∃ rseg rsegs, splitSegs r = rseg :: rsegs := by
      cases hr : splitSegs r with
      | nil => exact absurd hr (splitSegs_ne_nil r)
      | cons rseg rsegs => exact ⟨rseg, rsegs, rfl⟩
    have ih := splitSegs_append_slash l' r
    by_cases hc : c = '/' <;>
      simp [splitSegs, ih, hsegs, hrsegs, hc]

/-- Rejoining the segments of a list recovers the list. -/
theorem joinSegs_splitSegs : ∀ cs : List Char, joinSegs (splitSegs cs) = cs
  | [] => rfl
  | c :: rest => by
    obtain ⟨seg, segs, hsegs⟩ : ∃ seg segs, splitSegs rest = seg :: segs := by
      cases hr : splitSegs rest with
      | nil => exact absurd hr (splitSegs_ne_nil rest)
      | cons seg segs => exact ⟨seg, segs, rfl⟩
    have ih := joinSegs_splitSegs rest
    rw [hsegs] at ih
    by_cases hc : c = '/'
    · subst hc
      simp [splitSegs, hsegs, joinSegs, ih]
    · cases segs with
      | nil => simp_all [splitSegs, hsegs, joinSegs, hc]
      | cons s ss => simp_all [splitSegs, hsegs, joinSegs, hc]

/-- Joining with one extra trailing segment appends it after a separator. -/
theorem joinSegs_append_singleton :
    ∀ (segs : List (List Char)) (x : List Char), segs ≠ [] →
      joinSegs (segs ++ [x]) = joinSegs segs ++ '/' :: x
  | [], _, h => absurd rfl h
  | [s], x, _ => by simp [joinSegs]
  | s₁ :: s₂ :: t, x, _ => by
    have ih := joinSegs_append_singleton (s₂ :: t) x (by simp)
    simp only [List.cons_append] at ih ⊢
    simp only [joinSegs]
    rw [ih]
    simp [List.append_assoc]

/-- The normalization fold pushes every plain segment unchanged. -/
theorem foldl_normStep_plain (ab : Bool) :
    ∀ (segs : List (List Char)) (acc : List (List Char)),
      (∀ s ∈ segs, plainSeg s = true) →
      List.foldl (normStep ab) acc segs = segs.reverse ++ acc
  | [], acc, _ => rfl
  | s :: rest, acc, h => by
    have hs := h s (List.mem_cons_self s rest)
    simp only [plainSeg, Bool.not_eq_true', Bool.or_eq_false_iff, beq_eq_false_iff_ne] at hs
    have hstep : normStep ab acc s = s :: acc := by
      unfold normStep
      rw [if_neg (by rintro (h' | h') <;> [exact hs.1.1 h'; exact hs.1.2 h']),
        if_neg hs.2]
    have ih := foldl_normStep_plain ab rest (s :: acc)
      fun t ht => h t (List.mem_cons_of_mem s ht)
    simp [List.foldl_cons, hstep, ih]

/-- The last character of a list ending in a separator-free suffix is not a
separator. -/
theorem getLast?_append_ne_slash (l₁ : List Char) :
    ∀ l₂ : List Char, l₂ ≠ [] → '/' ∉ l₂ →
      ((l₁ ++ l₂).getLast? == some '/') = false := by
  intro l₂ h2 hm
  cases l₂ with
  | nil => exact absurd rfl h2
  | cons c t =>
    rw [List.getLast?_append_cons]
    have : ∀ t' : List Char, ∀ c' : Char, c' ≠ '/' → '/' ∉ t' →
        ((c' :: t').getLast? = some '/') = False := by
      intro t'
      induction t' with
      | nil =>
        intro c' hc _
        simp [List.getLast?, hc]
      | cons d t'' ih =>
        intro c' _ hmem
        have hd : d ≠ '/' := fun hEq => hmem (hEq ▸ List.mem_cons_self d t'')
        have ht'' : '/' ∉ t'' := fun hx => hmem (List.mem_cons_of_mem d hx)
        rw [List.getLast?_cons_cons]
        exact ih d hd ht''
    have hc : c ≠ '/' := fun hEq => hm (hEq ▸ List.mem_cons_self c t)
    have ht : '/' ∉ t := fun hx => hm (List.mem_cons_of_mem c hx)
    simp [this t c hc ht]

/-- A list with no doubled-slash occurrence counted has none detected. -/
theorem hasDS_eq_false_of_dsCount :
    ∀ cs : List Char, dsCount cs = 0 → hasDS cs = false
  | [], _ => rfl
  | [_], _ => rfl
  | c₁ :: c₂ :: rest, h => by
    simp only [dsCount, Nat.add_eq_zero] at h
    have hc : ¬(c₁ = '/' ∧ c₂ = '/') := by
      intro hand
      simp [hand] at h
    have hrec := hasDS_eq_false_of_dsCount (c₂ :: rest) h.2
    simp only [hasDS, Bool.or_eq_false_iff]
    refine ⟨?_, hrec⟩
    rcases Decidable.not_and_iff_or_not.mp hc with h' | h' <;> simp [h']

/-- Replacing the first doubled slash of a list with at most one
doubled-slash occurrence leaves a list without any. -/
theorem replaceFirstDS_hasDS :
    ∀ cs : List Char, dsCount cs ≤ 1 → hasDS (replaceFirstDS cs) = false
  | [], _ => rfl
  | [_], _ => rfl
  | c₁ :: c₂ :: rest, h => by
    by_cases hc : c₁ = '/' ∧ c₂ = '/'
    · obtain ⟨h1, h2⟩ := hc
      subst h1
      subst h2
      have hz : dsCount ('/' :: rest) = 0 := by
        simp only [dsCount] at h
        simp at h
        omega
      have hds := hasDS_eq_false_of_dsCount _ hz
      simpa [replaceFirstDS] using hds
    · have hpair : (c₁ == '/' && c₂ == '/') = false := by
        rcases Decidable.not_and_iff_or_not.mp hc with h' | h' <;> simp [h']
      have hle : dsCount (c₂ :: rest) ≤ 1 := by
        simp only [dsCount, if_neg hc] at h
        omega
      have hrec := replaceFirstDS_hasDS (c₂ :: rest) hle
      cases rest with
      | nil =>
        simp [replaceFirstDS, hasDS, hc, hpair]
      | cons r rs =>
        have hshape : ∃ tl, replaceFirstDS (c₂ :: r :: rs) = c₂ :: tl := by
          by_cases hcr : c₂ = '/' ∧ r = '/'
          · refine ⟨rs, ?_⟩
            simp [replaceFirstDS, hcr]
          · refine ⟨replaceFirstDS (r :: rs), ?_⟩
            simp [replaceFirstDS, hcr]
        rcases hshape with ⟨tl, htl⟩
        rw [htl] at hrec
        have hstep : replaceFirstDS (c₁ :: c₂ :: r :: rs) =
            c₁ :: replaceFirstDS (c₂ :: r :: rs) := by
          simp only [replaceFirstDS, if_neg hc]
        rw [hstep, htl]
        simp only [hasDS, Bool.or_eq_false_iff]
        exact ⟨hpair, hrec⟩

/-- Membership in the output of `filterImages`, decomposed. -/
theorem mem_filterImages (f : String) (files : List String) (projectDir : String) :
    f ∈ filterImages files projectDir ↔
      ∃ file, file ∈ files ∧
        f = String.mk (replaceFirstDS (projectDir.data ++ '/' :: file.data)) ∧
        hasImageExt f = true := by
  simp only [filterImages, List.mem_filter, List.mem_map]
  constructor
  · rintro ⟨⟨file, hmem, hEq⟩, hExt⟩
    exact ⟨file, hmem, hEq.symm, hExt⟩
  · rintro ⟨file, hmem, hEq, hExt⟩
    exact ⟨⟨file, hmem, hEq.symm⟩, hExt⟩

/-- Dropping a run of characters satisfying the predicate from the front of
an append. -/
theorem dropWhile_append_of_pos (p : Char → Bool) :
    ∀ (xs ys : List Char), (∀ c ∈ xs, p c = true) →
      (xs ++ ys).dropWhile p = ys.dropWhile p
  | [], _, _ => rfl
  | x :: xs, ys, h => by
    have hx : p x = true := h x (List.mem_cons_self x xs)
    have ht : ∀ c ∈ xs, p c = true := fun c hc => h c (List.mem_cons_of_mem x hc)
    simp [List.dropWhile, hx, dropWhile_append_of_pos p xs ys ht]

/-- Taking while the predicate holds stops exactly at the first failing
character. -/
theorem takeWhile_append_of_pos (p : Char → Bool) :
    ∀ (xs : List Char) (y : Char) (ys : List Char),
      (∀ c ∈ xs, p c = true) → p y = false →
      (xs ++ y :: ys).takeWhile p = xs
  | [], y, ys, _, hy => by simp [List.takeWhile, hy]
  | x :: xs, y, ys, h, hy => by
    have hx : p x = true := h x (List.mem_cons_self x xs)
    have ht : ∀ c ∈ xs, p c = true := fun c hc => h c (List.mem_cons_of_mem x hc)
    simp [List.takeWhile, hx, takeWhile_append_of_pos p xs y ys ht hy]

/-- Splitting at the last occurrence of a separator recovers the two halves
when the right half is separator-free. -/
theorem splitAtLastChar_eq (sep : Char) (l r : List Char) (hr : sep ∉ r) :
    splitAtLastChar sep (l ++ sep :: r) = some (l, r) := by
  have hrev : (l ++ sep :: r).reverse = r.reverse ++ sep :: l.reverse := by
    simp
  have hall : ∀ c ∈ r.reverse, (!(c == sep)) = true := by
    intro c hc
    have : c ≠ sep := fun hEq => hr (hEq ▸ List.mem_reverse.mp hc)
    simp [this]
  have hsep : (!(sep == sep)) = false := by simp
  have hdrop : (r.reverse ++ sep :: l.reverse).dropWhile (fun c => !(c == sep)) =
      sep :: l.reverse := by
    rw [dropWhile_append_of_pos _ _ _ hall]
    simp [List.dropWhile, hsep]
  have htake : (r.reverse ++ sep :: l.reverse).takeWhile (fun c => !(c == sep)) =
      r.reverse := takeWhile_append_of_pos _ _ _ _ hall hsep
  simp [splitAtLastChar, hrev, hdrop, htake]

/-- Elements of a plain-segment list followed by one plain segment are all
plain. -/
theorem all_plain_append (segs : List (List Char)) (X : List Char)
    (hsegs : ∀ s ∈ segs, plainSeg s = true) (hX : plainSeg X = true) :
    ∀ s ∈ segs ++ [X], plainSeg s = true := by
  intro s hs
  rcases List.mem_append.mp hs with h | h
  · exact hsegs s h
  · rw [List.mem_singleton.mp h]
    exact hX

/-- Normalizing a path made of a plain directory prefix, a separator and a
plain separator-free base leaves it unchanged. -/
theorem normalizePosix_plain (pre X : List Char) (hXne : X ≠ [])
    (hXslash : '/' ∉ X) (hXplain : plainSeg X = true)
    (hpre : plainDir pre = true) :
    normalizePosix (pre ++ '/' :: X) = pre ++ '/' :: X := by
  have hsX : splitSegs X = [X] := splitSegs_of_not_mem X hXslash
  have hXprops : ¬(X = [] ∨ X = ['.']) ∧ X ≠ ['.', '.'] := by
    simp only [plainSeg, Bool.not_eq_true', Bool.or_eq_false_iff,
      beq_eq_false_iff_ne] at hXplain
    exact ⟨by rintro (h | h); exacts [hXplain.1.1 h, hXplain.1.2 h], hXplain.2⟩
  have hts : ((pre ++ '/' :: X).getLast? == some '/') = false := by
    have h := getLast?_append_ne_slash (pre ++ ['/']) X hXne hXslash
    simpa [List.append_assoc] using h
  have hsplit : splitSegs (pre ++ '/' :: X) = splitSegs pre ++ [X] := by
    rw [splitSegs_append_slash, hsX]
  cases pre with
  | nil =>
    simp only [List.nil_append] at hts hsplit ⊢
    unfold normalizePosix
    rw [if_neg (by simp : ('/' :: X : List Char) ≠ [])]
    have hs1 : splitSegs ('/' :: X) = [[], X] := by
      simpa [splitSegs_of_not_mem X hXslash] using hsplit
    have h0 : normStep (!((some '/' == some '/') : Bool)) [] [] = [] := by
      simp [normStep]
    have h1 : normStep (!((some '/' == some '/') : Bool)) [] X = [X] := by
      unfold normStep
      rw [if_neg hXprops.1, if_neg hXprops.2]
    simp only [List.head?_cons, hs1, List.foldl_cons, List.foldl_nil, hts, h0, h1]
    simp [joinSegs, hXne]
  | cons d pre' =>
    obtain ⟨seg, segs, hsegs'⟩ : ∃ seg segs, splitSegs pre' = seg :: segs := by
      cases hr : splitSegs pre' with
      | nil => exact absurd hr (splitSegs_ne_nil pre')
      | cons seg segs => exact ⟨seg, segs, rfl⟩
    by_cases hd : d = '/'
    · subst hd
      have hfr : splitSegs ('/' :: pre') = [] :: seg :: segs := by
        simp [splitSegs, hsegs']
      simp only [plainDir, hfr, Bool.and_eq_true, List.all_eq_true] at hpre
      have hplainAll : ∀ s ∈ (seg :: segs) ++ [X], plainSeg s = true :=
        all_plain_append _ X hpre.2 hXplain
      rw [hfr] at hsplit
      simp only [List.cons_append] at hts hsplit ⊢
      unfold normalizePosix
      rw [if_neg (by simp : ('/' :: (pre' ++ '/' :: X) : List Char) ≠ [])]
      have h0 : normStep (!((some '/' == some '/') : Bool)) [] [] = [] := by
        simp [normStep]
      have hfold := foldl_normStep_plain (!((some '/' == some '/') : Bool))
        ((seg :: segs) ++ [X]) [] hplainAll
      simp only [List.cons_append, List.foldl_cons] at hfold
      have hbody : joinSegs (seg :: (segs ++ [X])) = pre' ++ '/' :: X := by
        have h' := joinSegs_append_singleton (seg :: segs) X (by simp)
        simp only [List.cons_append] at h'
        rw [h']
        have hjs := joinSegs_splitSegs pre'
        rw [hsegs'] at hjs
        rw [hjs]
      simp only [List.head?_cons, hsplit, hts, List.foldl_cons, h0, hfold,
        List.append_nil, List.reverse_reverse, hbody]
      simp
    · have hfr : splitSegs (d :: pre') = (d :: seg) :: segs := by
        simp [splitSegs, hsegs', hd]
      simp only [plainDir, hfr, Bool.and_eq_true, Bool.or_eq_true,
        List.all_eq_true, beq_iff_eq] at hpre
      have hfirst : plainSeg (d :: seg) = true := by
        rcases hpre.1 with h | h
        · exact absurd h (by simp)
        · exact h
      have hplainAll : ∀ s ∈ ((d :: seg) :: segs) ++ [X], plainSeg s = true := by
        refine all_plain_append _ X ?_ hXplain
        intro s hs
        rcases List.mem_cons.mp hs with h | h
        · rw [h]; exact hfirst
        · exact hpre.2 s h
      rw [hfr] at hsplit
      simp only [List.cons_append] at hts hsplit ⊢
      unfold normalizePosix
      rw [if_neg (by simp : (d :: (pre' ++ '/' :: X) : List Char) ≠ [])]
      have habs : ((some d == some '/') : Bool) = false := by
        simp [hd]
      have hfold := foldl_normStep_plain (!(false : Bool))
        (((d :: seg) :: segs) ++ [X]) [] hplainAll
      simp only [List.cons_append, List.foldl_cons] at hfold
      have hbody : joinSegs ((d :: seg) :: (segs ++ [X])) = d :: (pre' ++ '/' :: X) := by
        have h' := joinSegs_append_singleton ((d :: seg) :: segs) X (by simp)
        simp only [List.cons_append] at h'
        rw [h']
        have hjs := joinSegs_splitSegs (d :: pre')
        rw [hfr] at hjs
        rw [hjs]
        simp
      simp only [List.head?_cons, hsplit, hts, habs, List.foldl_cons, hfold,
        List.append_nil, List.reverse_reverse, hbody]
      simp

/-- Normalizing a root, a redundant separator and a plain separator-free
base collapses the doubled root separator. -/
theorem normalizePosix_root_double (X : List Char) (hXne : X ≠ [])
    (hXslash : '/' ∉ X) (hXplain : plainSeg X = true) :
    normalizePosix ('/' :: '/' :: X) = '/' :: X := by
  have hsX : splitSegs X = [X] := splitSegs_of_not_mem X hXslash
  have hs1 : splitSegs ('/' :: X) = [[], X] := by
    rw [splitSegs_cons_slash, hsX]
  have hs2 : splitSegs ('/' :: '/' :: X) = [[], [], X] := by
    rw [splitSegs_cons_slash, hs1]
  have hXprops : ¬(X = [] ∨ X = ['.']) ∧ X ≠ ['.', '.'] := by
    simp only [plainSeg, Bool.not_eq_true', Bool.or_eq_false_iff,
      beq_eq_false_iff_ne] at hXplain
    exact ⟨by rintro (h | h); exacts [hXplain.1.1 h, hXplain.1.2 h], hXplain.2⟩
  have hts : (('/' :: '/' :: X).getLast? == some '/') = false := by
    have h := getLast?_append_ne_slash ['/', '/'] X hXne hXslash
    simpa using h
  have h0 : normStep (!((some '/' == some '/') : Bool)) [] [] = [] := by
    simp [normStep]
  have h1 : normStep (!((some '/' == some '/') : Bool)) [] X = [X] := by
    unfold normStep
    rw [if_neg hXprops.1, if_neg hXprops.2]
  unfold normalizePosix
  rw [if_neg (by simp)]
  simp only [List.head?_cons, hs2, List.foldl_cons, List.foldl_nil, hts, h0, h1]
  simp [joinSegs, hXne]

/-! ## Claim theorems -/

/-- C1: for a project containing exactly the image files `a.png`, `b.png`,
`c.jpg`, all matched by the bundle patterns, `getAssetFilesAsync` with
`include="*.png"` selects `a.png` and `b.png`; adding `exclude="b.png"`
selects only `a.png`; in both calls `allFiles` is all three files. -/
theorem include_exclude_example :
    getAssetFilesAsync exampleProject { quality := 80, include? := some "*.png" } =
      { allFiles := ["/p/a.png", "/p/b.png", "/p/c.jpg"]
        selectedFiles := ["/p/a.png", "/p/b.png"] } ∧
    getAssetFilesAsync exampleProject
        { quality := 80, include? := some "*.png", exclude? := some "b.png" } =
      { allFiles := ["/p/a.png", "/p/b.png", "/p/c.jpg"]
        selectedFiles := ["/p/a.png"] } := by
  constructor <;> decide

/-- C3: when a (truthy) include pattern is supplied, the selected set before
exclusion and image-filtering is exactly the expansion of that pattern alone;
in particular an include pattern matching zero files yields an empty
`selectedFiles`. -/
theorem include_pattern_authoritative (s : ProjectState) (o : OptimizationOptions)
    (pat : String) (h : o.include? = some pat) (hne : pat ≠ "") :
    includedOf s o = globSync s pat ∧
      (globSync s pat = [] → (getAssetFilesAsync s o).selectedFiles = []) := by
  have hbeq : (pat == "") = false := beq_eq_false_iff_ne.mpr hne
  have hinc : includedOf s o = globSync s pat := by
    simp [includedOf, h, hbeq]
  refine ⟨hinc, fun hz => ?_⟩
  have hfil : filteredOf s o = [] := by
    unfold filteredOf
    cases ht : optTruthy o.exclude? <;> simp [excludedOf, hinc, hz]
  simp [getAssetFilesAsync, hfil, filterImages]

/-- Witness for C3 at a concrete project where the include pattern matches
nothing while `allFiles` is non-empty. -/
theorem include_pattern_authoritative_witness :
    (getAssetFilesAsync exampleProject
      { quality := 80, include? := some "*.zzz" }).selectedFiles = [] ∧
    (getAssetFilesAsync exampleProject
      { quality := 80, include? := some "*.zzz" }).allFiles ≠ [] :=
  ⟨(include_pattern_authoritative exampleProject
      { quality := 80, include? := some "*.zzz" } "*.zzz" rfl (by decide)).2 (by decide),
   by decide⟩

/-- C4: `allFiles` is computed from the bundle patterns alone; two option
values differing only in their include/exclude fields produce identical
`allFiles`. -/
theorem allFiles_independent_of_filters (s : ProjectState)
    (o₁ o₂ : OptimizationOptions) (_hq : o₁.quality = o₂.quality)
    (_hs : o₁.save = o₂.save) :
    (getAssetFilesAsync s o₁).allFiles = (getAssetFilesAsync s o₂).allFiles := rfl

/-- Witness for C4 at a concrete project and two filter settings. -/
theorem allFiles_independent_of_filters_witness :
    (getAssetFilesAsync exampleProject
        { quality := 80, include? := some "*.png" }).allFiles =
      (getAssetFilesAsync exampleProject
        { quality := 80, exclude? := some "b.png" }).allFiles :=
  allFiles_independent_of_filters exampleProject
    { quality := 80, include? := some "*.png" }
    { quality := 80, exclude? := some "b.png" } rfl rfl

/-- C6: every path in `allFiles` or `selectedFiles` passes the
case-insensitive image-extension test (`.png`, `.jpg`, `.jpeg`), so files
with any other extension are excluded from both sets whatever the
include/exclude patterns. -/
theorem selected_paths_are_images (s : ProjectState) (o : OptimizationOptions)
    (f : String)
    (h : f ∈ (getAssetFilesAsync s o).allFiles ∨
      f ∈ (getAssetFilesAsync s o).selectedFiles) :
    hasImageExt f = true := by
  rcases h with h | h
  · have h' : f ∈ filterImages (allFilesOf s) s.projectDir := h
    exact ((mem_filterImages f _ _).mp h').choose_spec.2.2
  · have h' : f ∈ filterImages (filteredOf s o) s.projectDir := h
    exact ((mem_filterImages f _ _).mp h').choose_spec.2.2

/-- Witness for C6 at a concrete returned path. -/
theorem selected_paths_are_images_witness : hasImageExt "/p/a.png" = true :=
  selected_paths_are_images exampleProject basicOptions "/p/a.png"
    (Or.inl (by decide))

/-- C8: the conditional application of the exclusion filter is extensionally
equivalent to applying it unconditionally: when `exclude` is unset the
exclusion set is empty so the filter is the identity, and the two variants
agree on every input. -/
theorem exclude_filter_equivalence (s : ProjectState) (o : OptimizationOptions) :
    getAssetFilesAsync s o = getAssetFilesAsyncAlwaysExclude s o ∧
      (optTruthy o.exclude? = false → toExcludeOf s o = []) := by
  have hTE : optTruthy o.exclude? = false → toExcludeOf s o = [] := by
    intro hf
    unfold toExcludeOf
    match hoe : o.exclude? with
    | none => rfl
    | some pat =>
      rw [hoe] at hf
      simp [optTruthy] at hf
      simp [hf]
  have hfe : filteredOf s o = excludedOf s o := by
    cases ht : optTruthy o.exclude? with
    | true => simp [filteredOf, ht]
    | false =>
      rw [filteredOf, ht]
      simp only [Bool.false_eq_true, if_false]
      rw [excludedOf, hTE ht]
      exact (filter_not_contains_nil (includedOf s o)).symm
  have hsel : filterImages (filteredOf s o) s.projectDir =
      filterImages (excludedOf s o) s.projectDir := by rw [hfe]
  refine ⟨?_, hTE⟩
  unfold getAssetFilesAsync getAssetFilesAsyncAlwaysExclude
  rw [hsel]

/-- Witness for C8 at a concrete project with no exclude pattern. -/
theorem exclude_filter_equivalence_witness :
    getAssetFilesAsync exampleProject basicOptions =
      getAssetFilesAsyncAlwaysExclude exampleProject basicOptions ∧
      toExcludeOf exampleProject basicOptions = [] :=
  ⟨(exclude_filter_equivalence exampleProject basicOptions).1,
   (exclude_filter_equivalence exampleProject basicOptions).2 rfl⟩

/-- C2 (counterexample): a manifest record can hold a digest key mapped to
`false`; then every selected file's digest is present in the record, yet
`hasUnoptimizedAssetsAsync` returns `true` — refuting the claim that it
returns `false` whenever every selected digest is in the record. -/
theorem hasUnoptimized_present_false_counterexample :
    (hasUnoptimizedAssetsAsync falseEntryProject basicOptions).2 = Except.ok true ∧
    (getAssetFilesAsync falseEntryProject basicOptions).selectedFiles ≠ [] ∧
    ((getAssetFilesAsync falseEntryProject basicOptions).selectedFiles.all
      fun f => (lookupHash [("h", false)] (falseEntryProject.hash f)).isSome) = true := by
  refine ⟨rfl, by decide, by decide⟩

/-- C2 (amended): `hasUnoptimizedAssetsAsync` returns `true` when the
manifest does not exist; otherwise it returns `true` iff some selected file's
digest is not mapped to `true` (absent or mapped to `false`) in the record,
and the scanning loop answers `true` at the first such file regardless of
the files after it. -/
theorem hasUnoptimized_characterization (s : ProjectState) (o : OptimizationOptions) :
    (s.manifest = none → hasUnoptimizedAssetsAsync s o = (s, Except.ok true)) ∧
    (∀ record, s.manifest = some (ManifestDoc.valid record) →
      (hasUnoptimizedAssetsAsync s o).2 =
        Except.ok ((getAssetFilesAsync s o).selectedFiles.any
          fun f => !truthyEntry (lookupHash record (s.hash f)))) ∧
    (∀ (hash : String → String) (record : List (String × Bool)) (f : String)
        (rest : List String), truthyEntry (lookupHash record (hash f)) = false →
      checkFiles hash record (f :: rest) = true) := by
  refine ⟨fun h => ?_, fun record h => ?_, fun hash record f rest h => ?_⟩
  · simp [hasUnoptimizedAssetsAsync, h]
  · simp [hasUnoptimizedAssetsAsync, readAssetJsonAsync, h, checkFiles_eq_any]
  · simp [checkFiles, h]

/-- Witness for C2 (amended): the three parts at concrete inputs — a missing
manifest, a fully recorded project, and a loop hitting an unrecorded digest
first. -/
theorem hasUnoptimized_characterization_witness :
    hasUnoptimizedAssetsAsync exampleProject basicOptions =
      (exampleProject, Except.ok true) ∧
    (hasUnoptimizedAssetsAsync recordedProject basicOptions).2 =
      Except.ok ((getAssetFilesAsync recordedProject basicOptions).selectedFiles.any
        fun f => !truthyEntry (lookupHash [("h", true)] (recordedProject.hash f))) ∧
    checkFiles (fun _ => "h") [] ("x" :: ["y"]) = true :=
  ⟨(hasUnoptimized_characterization exampleProject basicOptions).1 rfl,
   (hasUnoptimized_characterization recordedProject basicOptions).2.1 [("h", true)] rfl,
   (hasUnoptimized_characterization recordedProject basicOptions).2.2
     (fun _ => "h") [] "x" ["y"] rfl⟩

/-- C7: when the manifest document exists but does not parse, the load
returns a fatal error rather than any record, and leaves the corrupt
document untouched. -/
theorem corrupt_manifest_fatal (s : ProjectState)
    (h : s.manifest = some ManifestDoc.corrupt) :
    (readAssetJsonAsync s).2 = Except.error "Error parsing JSON: assets.json" ∧
      (readAssetJsonAsync s).1 = s := by
  simp [readAssetJsonAsync, h]

/-- Witness for C7 at a concrete corrupt project. -/
theorem corrupt_manifest_fatal_witness :
    (readAssetJsonAsync corruptProject).2 =
      Except.error "Error parsing JSON: assets.json" ∧
      (readAssetJsonAsync corruptProject).1 = corruptProject :=
  corrupt_manifest_fatal corruptProject rfl

/-- C10: a digest key present in the record but mapped to `false` does not
let the file be skipped: `hasUnoptimizedAssetsAsync` still returns `true`,
because the check is on the truthiness of the entry, not key membership. -/
theorem false_entry_triggers_unoptimized (s : ProjectState) (o : OptimizationOptions)
    (record : List (String × Bool)) (f : String)
    (hm : s.manifest = some (ManifestDoc.valid record))
    (hf : f ∈ (getAssetFilesAsync s o).selectedFiles)
    (hl : lookupHash record (s.hash f) = some false) :
    (hasUnoptimizedAssetsAsync s o).2 = Except.ok true := by
  simp only [hasUnoptimizedAssetsAsync, readAssetJsonAsync, hm, Option.isNone_some,
    Bool.false_eq_true, if_false, checkFiles_eq_any]
  simp only [Except.ok.injEq]
  refine List.any_eq_true.mpr ⟨f, hf, ?_⟩
  simp [hl, truthyEntry]

/-- Witness for C10 at a concrete project whose only entry is `false`. -/
theorem false_entry_triggers_unoptimized_witness :
    (hasUnoptimizedAssetsAsync falseEntryProject basicOptions).2 = Except.ok true :=
  false_entry_triggers_unoptimized falseEntryProject basicOptions [("h", false)]
    "/p/a.png" rfl (by decide) rfl

/-- C5 (counterexample): JavaScript's `replace('//', '/')` collapses only
the FIRST doubled separator, so a project root that itself contains a
doubled separator and ends with a separator yields a returned path that
still contains `//`. -/
theorem returned_path_doubled_slash_counterexample :
    "/r/s//a.png" ∈ (getAssetFilesAsync doubledSlashProject basicOptions).selectedFiles ∧
      hasDS "/r/s//a.png".data = true := by
  constructor <;> decide

/-- C5 (amended): every returned path equals the project root joined with
the glob-matched relative path with only the first doubled-separator
occurrence collapsed; consequently it contains no `//` whenever the joined
string has at most one doubled-separator occurrence (as when root and
relative path are themselves free of doubled separators). -/
theorem returned_path_shape (s : ProjectState) (o : OptimizationOptions) (f : String)
    (h : f ∈ (getAssetFilesAsync s o).allFiles ∨
      f ∈ (getAssetFilesAsync s o).selectedFiles) :
    ∃ file, (file ∈ allFilesOf s ∨ file ∈ filteredOf s o) ∧
      f = String.mk (replaceFirstDS (s.projectDir.data ++ '/' :: file.data)) ∧
      (dsCount (s.projectDir.data ++ '/' :: file.data) ≤ 1 →
        hasDS f.data = false) := by
  rcases h with h | h
  · have h' : f ∈ filterImages (allFilesOf s) s.projectDir := h
    rcases (mem_filterImages f _ _).mp h' with ⟨file, hmem, hEq, _⟩
    refine ⟨file, Or.inl hmem, hEq, fun hcnt => ?_⟩
    rw [hEq]
    exact replaceFirstDS_hasDS _ hcnt
  · have h' : f ∈ filterImages (filteredOf s o) s.projectDir := h
    rcases (mem_filterImages f _ _).mp h' with ⟨file, hmem, hEq, _⟩
    refine ⟨file, Or.inr hmem, hEq, fun hcnt => ?_⟩
    rw [hEq]
    exact replaceFirstDS_hasDS _ hcnt

/-- Witness for C5 (amended) at a concrete returned path. -/
theorem returned_path_shape_witness :
    ∃ file, (file ∈ allFilesOf exampleProject ∨
        file ∈ filteredOf exampleProject basicOptions) ∧
      "/p/a.png" =
        String.mk (replaceFirstDS (exampleProject.projectDir.data ++ '/' :: file.data)) ∧
      (dsCount (exampleProject.projectDir.data ++ '/' :: file.data) ≤ 1 →
        hasDS "/p/a.png".data = false) :=
  returned_path_shape exampleProject basicOptions "/p/a.png" (Or.inl (by decide))

/-- C9: `createNewFilename` inserts `.orig` before the final extension of
the base name: on a path `dir/name.ext` whose base name has a non-leading
extension dot and is not `..`, whose name and extension are separator-free,
and whose directory consists of plain segments (no empty, `.` or `..`
segments beyond an optional leading root), it returns `dir/name.orig.ext`. -/
theorem createNewFilename_inserts_orig (dir name ext : List Char)
    (hnameNe : name ≠ []) (hnameS : '/' ∉ name)
    (hextS : '/' ∉ ext) (hextD : '.' ∉ ext)
    (hbase2 : ¬(name = ['.'] ∧ ext = []))
    (hdirP : plainDir dir = true) :
    createNewFilename (String.mk (dir ++ '/' :: (name ++ '.' :: ext))) =
      String.mk (dir ++ '/' :: (name ++ ".orig".data ++ '.' :: ext)) := by
  have horig : ('/' : Char) ∉ ".orig".data := by decide
  have hXslash : ('/' : Char) ∉ name ++ (".orig".data ++ '.' :: ext) := by
    intro hmem
    rcases List.mem_append.mp hmem with hm | hm
    · exact hnameS hm
    rcases List.mem_append.mp hm with hm | hm
    · exact horig hm
    rcases List.mem_cons.mp hm with hm | hm
    · exact absurd hm (by decide)
    · exact hextS hm
  have hbase : ('/' : Char) ∉ name ++ '.' :: ext := by
    intro hmem
    rcases List.mem_append.mp hmem with hm | hm
    · exact hnameS hm
    rcases List.mem_cons.mp hm with hm | hm
    · exact absurd hm (by decide)
    · exact hextS hm
  have hXlen : (name ++ (".orig".data ++ '.' :: ext)).length =
      name.length + 6 + ext.length := by
    have h5 : (".orig".data).length = 5 := rfl
    simp [List.length_append, h5]
    omega
  have hXne : name ++ (".orig".data ++ '.' :: ext) ≠ [] := by
    intro h
    have := congrArg List.length h
    rw [hXlen] at this
    simp at this
  have hXplain : plainSeg (name ++ (".orig".data ++ '.' :: ext)) = true := by
    have hshort : ∀ l : List Char, l.length ≤ 2 →
        name ++ (".orig".data ++ '.' :: ext) ≠ l := by
      intro l hl hEq
      have := congrArg List.length hEq
      rw [hXlen] at this
      omega
    simp only [plainSeg, Bool.not_eq_true', Bool.or_eq_false_iff,
      beq_eq_false_iff_ne]
    exact ⟨⟨hshort [] (by simp), hshort ['.'] (by simp)⟩,
      hshort ['.', '.'] (by simp)⟩
  have hdata : (String.mk (dir ++ '/' :: (name ++ '.' :: ext))).data =
      dir ++ '/' :: (name ++ '.' :: ext) := rfl
  have hsplit1 := splitAtLastChar_eq '/' dir (name ++ '.' :: ext) hbase
  have hsplit2 := splitAtLastChar_eq '.' name ext hextD
  have hparse : pathParse (String.mk (dir ++ '/' :: (name ++ '.' :: ext))) =
      ((if dir = [] then "/" else String.mk dir), String.mk name,
        String.mk ('.' :: ext)) := by
    unfold pathParse
    rw [hdata, hsplit1]
    simp only [hsplit2]
    rw [if_neg (by rintro (h | h); exacts [hnameNe h, hbase2 h])]
  have hb : (String.mk name ++ ".orig" ++ String.mk ('.' :: ext)).data =
      name ++ (".orig".data ++ '.' :: ext) := by
    simp [String.data_append, List.append_assoc]
  unfold createNewFilename
  rw [hparse]
  dsimp only
  by_cases hdirNil : dir = []
  · subst hdirNil
    rw [if_pos rfl]
    unfold pathJoin
    rw [hb]
    simp only [show ("/" : String).data = ['/'] from rfl]
    rw [if_neg (by simp : ¬(['/'] = ([] : List Char))), if_neg hXne,
      if_neg (by simp : ¬(['/'] ++ '/' :: (name ++ (".orig".data ++ '.' :: ext)) =
        ([] : List Char)))]
    rw [show ['/'] ++ '/' :: (name ++ (".orig".data ++ '.' :: ext)) =
        '/' :: '/' :: (name ++ (".orig".data ++ '.' :: ext)) from rfl]
    rw [normalizePosix_root_double _ hXne hXslash hXplain]
    simp
  · rw [if_neg hdirNil]
    unfold pathJoin
    rw [hb]
    simp only [show ∀ l : List Char, (String.mk l).data = l from fun _ => rfl]
    rw [if_neg hdirNil, if_neg hXne,
      if_neg (by simp : ¬(dir ++ '/' :: (name ++ (".orig".data ++ '.' :: ext)) =
        ([] : List Char)))]
    rw [normalizePosix_plain dir _ hXne hXslash hXplain hdirP]
    simp

/-- Witness for C9: the spec's example `/a/b/photo.png` maps to
`/a/b/photo.orig.png`. -/
theorem createNewFilename_inserts_orig_witness :
    createNewFilename "/a/b/photo.png" = "/a/b/photo.orig.png" := by
  have h := createNewFilename_inserts_orig "/a/b".data "photo".data "png".data
    (by decide) (by decide) (by decide) (by decide) (by decide) (by decide)
  exact h

end AssetUtils
